import Mathlib

/-!
Shallow embedding of the I/O trap-and-dispatch layer of the ACRN hypervisor
excerpt (hypervisor/arch/x86/io.c and hypervisor/arch/x86/notify.c).

Machine integers are modelled as `Nat` with explicit truncation (`% 2^w` or
bitwise masks) exactly where the C code truncates: `uint16_t` casts become
`% 0x10000`, `uint32_t` stores become `% 0x100000000`, and so on.  Callbacks
are modelled by their observable behaviour: a port read callback is a function
from (port, size) to the returned value, a port write callback and the MMIO
read/write callback are recorded as invocation events (the MMIO callback also
carries the status value it returns).  Fallible paths return `Except`.
-/

/-- VHM request processing states REQ_STATE_FREE/PENDING/PROCESSING/COMPLETE. -/
inductive VhmState where
  | free
  | pending
  | processing
  | complete
deriving DecidableEq, Repr

/-- I/O request kinds REQ_PORTIO, REQ_MMIO, REQ_PCICFG, REQ_WP. -/
inductive IoReqType where
  | portio
  | mmio
  | pcicfg
  | wp
deriving DecidableEq, Repr

/-- Transfer directions REQUEST_READ / REQUEST_WRITE. -/
inductive IoDirection where
  | read
  | write
deriving DecidableEq, Repr

/-- vCPU lifecycle states; only VCPU_ZOMBIE is branched on in this layer. -/
inductive VcpuLifeState where
  | created
  | paused
  | running
  | zombie
deriving DecidableEq, Repr

/-- struct pio_request: direction, port address, size and the transferred
value (a uint32 in the C source). -/
structure PioRequest where
  direction : IoDirection
  address : Nat
  size : Nat
  value : Nat
deriving DecidableEq, Repr

/-- struct mmio_request: direction, guest-physical address, size, value. -/
structure MmioRequest where
  direction : IoDirection
  address : Nat
  size : Nat
  value : Nat
deriving DecidableEq, Repr

/-- struct io_request: the request kind, the partition-mode completion marker
io_req->processed, and the union of payloads (modelled as two separate
fields; only the field matching the kind is ever accessed by the claims). -/
structure IoRequest where
  rtype : IoReqType
  processed : VhmState
  pio : PioRequest
  mmio : MmioRequest
deriving DecidableEq, Repr

/-- struct vhm_request: the per-vCPU shared slot.  Only the fields this layer
reads or writes are modelled: the validity flag, the atomically accessed
processing-state marker, and the value fields of the pio/mmio payloads. -/
structure VhmRequest where
  valid : Nat
  processed : VhmState
  pioValue : Nat
  mmioValue : Nat
deriving DecidableEq, Repr

/-- Observable callback invocations made by the dispatchers.  `vhmInsert`
records the cross-domain hand-off acrn_insert_request_wait. -/
inductive IoCallEvent where
  | pioWrite (idx port size value : Nat)
  | pioRead (idx port size : Nat)
  | mmioCall (idx : Nat)
  | vhmInsert
deriving DecidableEq, Repr

/-- struct vm_io_handler's desc: base port, length and the callbacks.  The
read callback is modelled by its returned value as a function of (port, size);
the write callback has no modelled return and its invocation is recorded as an
event. -/
structure VmIoHandlerDesc where
  addr : Nat
  len : Nat
  readRet : Nat → Nat → Nat

/-- struct mem_io_node: half-open range [range_start, range_end) and the
read/write callback, modelled by the status value it returns. -/
structure MemIoNode where
  range_start : Nat
  range_end : Nat
  rwStatus : Int
deriving DecidableEq, Repr

/-- Two I/O bitmap pages (vm->arch_vm.iobitmap[0] and [1]); each page is a
map from 32-bit word index to word value. -/
structure IoBitmap where
  page0 : Nat → Nat
  page1 : Nat → Nat

/-- Per-VM state touched by this layer: the is_vm0 flag, the port handler
list (head = most recently registered), the I/O bitmaps, the MMIO handler
list (head = most recently registered, matching Linux list_add), the
launched flags of the created vCPUs (index 0 = vcpu_array[0]), and a log of
ept_mr_del (gpa, size) unmap requests. -/
structure Vm where
  isVm0 : Bool
  ioHandlers : List VmIoHandlerDesc
  iobitmap : IoBitmap
  mmioList : List MemIoNode
  vcpuLaunched : List Bool
  eptDelLog : List (Nat × Nat)

/-- Modelled vCPU: lifecycle state, the pending request vcpu->req, the RAX
general-purpose register, and a flag recording that
request_vcpu_pre_work(vcpu, ACRN_VCPU_MMIO_COMPLETE) was requested. -/
structure Vcpu where
  lifeState : VcpuLifeState
  req : IoRequest
  rax : Nat
  mmioPreWork : Bool
deriving DecidableEq, Repr

/-- errno value ENODEV (19); the dispatchers return -ENODEV. -/
def ENODEV : Int := 19

/-- errno value EIO (5); the dispatchers return -EIO on spanning requests.
Named with a trailing underscore because the plain name collides with a core
Lean type. -/
def EIO_ : Int := 5

/-- errno value EINVAL (22). -/
def EINVAL : Int := 22

/-- Modelled from the spec: the IOREQ_PENDING sentinel returned by emulate_io
when a request has been delivered to VHM comes from a header that is not part
of the provided sources; the spec only requires it to be distinct from 0 and
from the negative errno codes, so it is modelled as 1. -/
def IOREQ_PENDING : Int := 1

/-- complete_ioreq: clear the slot's validity flag and reset the marker to
REQ_STATE_FREE. -/
def complete_ioreq (vhm : VhmRequest) : VhmRequest :=
  { vhm with valid := 0, processed := VhmState.free }

/-- emulate_pio_post: on a read, merge the low 8*size bits of the request
value into RAX; on a write, leave RAX alone.  mask = 0xFFFFFFFFUL >>
(32 - 8*size) and rax = (rax & ~mask) | (value & mask), all in uint64
arithmetic. -/
def emulate_pio_post (rax : Nat) (pio : PioRequest) : Nat :=
  let mask := 0xFFFFFFFF >>> (32 - 8 * pio.size)
  if pio.direction = IoDirection.read then
    (rax &&& ((2 ^ 64 - 1) ^^^ mask)) ||| (pio.value &&& mask)
  else
    rax

/-- dm_emulate_pio_post: copy the value produced by the external consumer out
of the shared slot into the vCPU's request, free the slot, then run
emulate_pio_post on the updated request. -/
def dm_emulate_pio_post (v : Vcpu) (vhm : VhmRequest) : Vcpu × VhmRequest :=
  let pio' := { v.req.pio with value := vhm.pioValue }
  let vhm' := complete_ioreq vhm
  let rax' := emulate_pio_post v.rax pio'
  ({ v with req := { v.req with pio := pio' }, rax := rax' }, vhm')

/-- emulate_io_post: the phase-2 completion entry point.  Returns the updated
vCPU, the updated shared slot, and whether resume_vcpu was called. -/
def emulate_io_post (v : Vcpu) (vhm : VhmRequest) : Vcpu × VhmRequest × Bool :=
  if vhm.valid = 0 ∨ vhm.processed ≠ VhmState.complete then
    (v, vhm, false)
  else if v.lifeState = VcpuLifeState.zombie then
    (v, complete_ioreq vhm, false)
  else
    match v.req.rtype with
    | IoReqType.mmio => ({ v with mmioPreWork := true }, vhm, true)
    | IoReqType.portio =>
        ((dm_emulate_pio_post v vhm).1, (dm_emulate_pio_post v vhm).2, true)
    | IoReqType.pcicfg =>
        ((dm_emulate_pio_post v vhm).1, (dm_emulate_pio_post v vhm).2, true)
    | IoReqType.wp => (v, complete_ioreq vhm, true)

/-- io_instr_dest_handler (CONFIG_PARTITION_MODE): force an all-ones value on
a read, discard a write, and mark the request COMPLETE. -/
def io_instr_dest_handler (req : IoRequest) : IoRequest :=
  let pio' :=
    if req.pio.direction = IoDirection.read then
      { req.pio with value := 0xFFFFFFFF }
    else
      req.pio
  { req with pio := pio', processed := VhmState.complete }

/-- The scan loop of hv_emulate_pio.  `port`, `size` and `mask` are the values
computed before the loop; `idx` is the position of the current handler in the
original list (used only to identify which callback fired).  base and end are
uint16 in the C source, hence the explicit % 0x10000 truncations (in
particular end = base + (uint16_t)len wraps past the top of the port space). -/
def pioScan (port size mask : Nat) (req : PioRequest) :
    List VmIoHandlerDesc → Nat → Int × PioRequest × List IoCallEvent
  | [], _ => (-ENODEV, req, [])
  | h :: rest, idx =>
    let base := h.addr % 0x10000
    let endp := (base + h.len % 0x10000) % 0x10000
    if endp ≤ port ∨ port + size ≤ base then
      pioScan port size mask req rest (idx + 1)
    else if ¬ (base ≤ port ∧ port + size ≤ endp) then
      (-EIO_, req, [])
    else if req.direction = IoDirection.write then
      (0, req, [IoCallEvent.pioWrite idx port size (req.value &&& mask)])
    else
      (0, { req with value := h.readRet port size % 0x100000000 },
       [IoCallEvent.pioRead idx port size])

/-- hv_emulate_pio: truncate the request's address and size to uint16,
compute the 8*size-bit mask, and scan the VM's port handler list. -/
def hv_emulate_pio (handlers : List VmIoHandlerDesc) (req : PioRequest) :
    Int × PioRequest × List IoCallEvent :=
  let port := req.address % 0x10000
  let size := req.size % 0x10000
  let mask := 0xFFFFFFFF >>> (32 - 8 * size)
  pioScan port size mask req handlers 0

/-- The scan loop of hv_emulate_mmio over the VM's mem_io_node list.  All
arithmetic is uint64, hence the % 2^64 truncation on address + size. -/
def mmioScan (address size : Nat) :
    List MemIoNode → Nat → Int × List IoCallEvent
  | [], _ => (-ENODEV, [])
  | h :: rest, idx =>
    let base := h.range_start % 2 ^ 64
    let endr := h.range_end % 2 ^ 64
    if (address + size) % 2 ^ 64 ≤ base ∨ endr ≤ address then
      mmioScan address size rest (idx + 1)
    else if ¬ (base ≤ address ∧ (address + size) % 2 ^ 64 ≤ endr) then
      (-EIO_, [])
    else
      (h.rwStatus, [IoCallEvent.mmioCall idx])

/-- hv_emulate_mmio: scan the MMIO handler list with the request's address
and size; a matching handler's callback supplies the returned status. -/
def hv_emulate_mmio (nodes : List MemIoNode) (req : MmioRequest) :
    Int × List IoCallEvent :=
  mmioScan (req.address % 2 ^ 64) (req.size % 2 ^ 64) nodes 0

/-- The kind switch at the top of emulate_io: PORT_IO goes to the port
dispatcher, MMIO and WP to the MMIO dispatcher, anything else is -EINVAL. -/
def emulate_io_dispatch (vm : Vm) (req : IoRequest) :
    Int × IoRequest × List IoCallEvent :=
  match req.rtype with
  | IoReqType.portio =>
      let r := hv_emulate_pio vm.ioHandlers req.pio
      (r.1, { req with pio := r.2.1 }, r.2.2)
  | IoReqType.mmio =>
      let r := hv_emulate_mmio vm.mmioList req.mmio
      (r.1, req, r.2)
  | IoReqType.wp =>
      let r := hv_emulate_mmio vm.mmioList req.mmio
      (r.1, req, r.2)
  | IoReqType.pcicfg => (-EINVAL, req, [])

/-- emulate_io: dispatch, then resolve a -ENODEV miss.  `partitionMode`
models CONFIG_PARTITION_MODE; `insertStatus` models the value returned by the
external transport acrn_insert_request_wait, whose invocation is recorded as
a `vhmInsert` event. -/
def emulate_io (partitionMode : Bool) (insertStatus : Int) (vm : Vm)
    (req : IoRequest) : Int × IoRequest × List IoCallEvent :=
  let r := emulate_io_dispatch vm req
  if r.1 = -ENODEV then
    if partitionMode then
      (0, io_instr_dest_handler r.2.1, r.2.2)
    else if insertStatus ≠ 0 then
      (insertStatus, r.2.1, r.2.2 ++ [IoCallEvent.vhmInsert])
    else
      (IOREQ_PENDING, r.2.1, r.2.2 ++ [IoCallEvent.vhmInsert])
  else
    r

/-- register_io_handler: prepend the new node to vm->arch_vm.io_handler.
The C code writes hdlr->next through the given pointer whenever the list is
non-empty, so a NULL hdlr together with a non-empty list is a null-pointer
dereference, modelled as `Except.error ()`; with an empty list the head is
simply overwritten with NULL. -/
def register_io_handler (head : List VmIoHandlerDesc)
    (hdlr : Option VmIoHandlerDesc) : Except Unit (List VmIoHandlerDesc) :=
  match hdlr with
  | some h => Except.ok (h :: head)
  | none => if head.isEmpty then Except.ok [] else Except.error ()

/-- create_io_handler: calloc a node and fill in the descriptor; returns
NULL (`none`) when allocation fails (`allocOk = false`). -/
def create_io_handler (allocOk : Bool) (port len : Nat)
    (readRet : Nat → Nat → Nat) : Option VmIoHandlerDesc :=
  if allocOk then some { addr := port, len := len, readRet := readRet }
  else none

/-- iobitmapClear: b[a >> 5] &= ~(1 << (a & 0x1f)) on the selected page. -/
def iobitmapClear (bm : IoBitmap) (hi : Bool) (a : Nat) : IoBitmap :=
  if hi then
    { bm with page1 := fun i =>
        if i = a >>> 5 then bm.page1 i &&& ((2 ^ 32 - 1) ^^^ (1 <<< (a &&& 0x1f)))
        else bm.page1 i }
  else
    { bm with page0 := fun i =>
        if i = a >>> 5 then bm.page0 i &&& ((2 ^ 32 - 1) ^^^ (1 <<< (a &&& 0x1f)))
        else bm.page0 i }

/-- iobitmapSet: b[a >> 5] |= (1 << (a & 0x1f)) on the selected page. -/
def iobitmapSet (bm : IoBitmap) (hi : Bool) (a : Nat) : IoBitmap :=
  if hi then
    { bm with page1 := fun i =>
        if i = a >>> 5 then bm.page1 i ||| (1 <<< (a &&& 0x1f))
        else bm.page1 i }
  else
    { bm with page0 := fun i =>
        if i = a >>> 5 then bm.page0 i ||| (1 <<< (a &&& 0x1f))
        else bm.page0 i }

/-- The loop of allow_guest_io_access.  `hi` models the pointer b: it starts
at page 0 and switches (stickily) to page 1 as soon as an address with bit 15
set is seen.  The address is a uint32, hence the % 2^32 on the increment. -/
def allowLoop (bm : IoBitmap) (hi : Bool) (address : Nat) : Nat → IoBitmap
  | 0 => bm
  | Nat.succ m =>
    let hi' := hi || decide (address &&& 0x8000 ≠ 0)
    let a := address &&& 0x7fff
    allowLoop (iobitmapClear bm hi' a) hi' ((address + 1) % 2 ^ 32) m

/-- The loop of deny_guest_io_access, symmetric to `allowLoop`. -/
def denyLoop (bm : IoBitmap) (hi : Bool) (address : Nat) : Nat → IoBitmap
  | 0 => bm
  | Nat.succ m =>
    let hi' := hi || decide (address &&& 0x8000 ≠ 0)
    let a := address &&& 0x7fff
    denyLoop (iobitmapSet bm hi' a) hi' ((address + 1) % 2 ^ 32) m

/-- allow_guest_io_access: clear the trap bit of each of nbytes ports
starting at address (both uint32 arguments). -/
def allow_guest_io_access (bm : IoBitmap) (address nbytes : Nat) : IoBitmap :=
  allowLoop bm false (address % 2 ^ 32) (nbytes % 2 ^ 32)

/-- deny_guest_io_access: set the trap bit of each of nbytes ports starting
at address. -/
def deny_guest_io_access (bm : IoBitmap) (address nbytes : Nat) : IoBitmap :=
  denyLoop bm false (address % 2 ^ 32) (nbytes % 2 ^ 32)

/-- Observation helper: the 32-bit word at index `i` of page 1 (`hi = true`)
or page 0 (`hi = false`). -/
def readWord (bm : IoBitmap) (hi : Bool) (i : Nat) : Nat :=
  if hi then bm.page1 i else bm.page0 i

/-- Observation function: the trap bit of a 16-bit port, read the way the
hardware consumes the bitmaps (page = bit 15 of the port, bit index = low 15
bits). -/
def trapBit (bm : IoBitmap) (port : Nat) : Bool :=
  let a := port &&& 0x7fff
  Nat.testBit (readWord bm (decide (port &&& 0x8000 ≠ 0)) (a >>> 5)) (a &&& 0x1f)

/-- register_io_emulation_handler: reject null callbacks (plain return, VM
unchanged); deny guest access to the range on vm0; create the handler node
(possibly NULL on allocation failure) and hand it to register_io_handler.
`write_ok` models a non-null write callback. -/
def register_io_emulation_handler (vm : Vm) (base len : Nat)
    (read_fn : Option (Nat → Nat → Nat)) (write_ok : Bool) (allocOk : Bool) :
    Except Unit Vm :=
  if read_fn.isNone || !write_ok then
    Except.ok vm
  else
    let vm' :=
      if vm.isVm0 then
        { vm with iobitmap := deny_guest_io_access vm.iobitmap base len }
      else vm
    let handler := create_io_handler allocOk base len
      (match read_fn with
       | some f => f
       | none => fun _ _ => 0)
    match register_io_handler vm'.ioHandlers handler with
    | Except.ok l => Except.ok { vm' with ioHandlers := l }
    | Except.error e => Except.error e

/-- register_mmio_emulation_handler: fail (-EINVAL, VM untouched) when the
VM has created vCPUs and vcpu_array[0] has launched, when the callback is
NULL, when end <= start, or when allocation fails; otherwise add the node at
the head of the MMIO list (Linux list_add), request the stage-2 unmap of
[start, end) for vm0 only, and return 0.

The C source tests read_write != NULL and end > start in one condition;
matching on the option first and testing the range second is the same
decision tree. -/
def register_mmio_emulation_handler (vm : Vm) (read_write : Option Int)
    (start end_ : Nat) (allocOk : Bool) : Int × Vm :=
  if 0 < vm.vcpuLaunched.length ∧ vm.vcpuLaunched.headD false = true then
    (-EINVAL, vm)
  else if read_write.isSome ∧ start < end_ then
    if allocOk then
      ((0 : Int),
       { vm with
          mmioList :=
            (⟨start, end_, read_write.getD 0⟩ : MemIoNode) :: vm.mmioList,
          eptDelLog :=
            if vm.isVm0 then (start, end_ - start) :: vm.eptDelLog
            else vm.eptDelLog })
    else (-EINVAL, vm)
  else (-EINVAL, vm)

/-- Modelled from the spec: the macro INVALID_BIT_INDEX used on the claiming
compare-and-swap in smp_call_function comes from a header that is not part of
the provided sources.  The spec describes the claiming step as atomically
transitioning the global mask from all-clear to the caller's mask, so the
constant is modelled as the all-ones 64-bit value, under which
mask & INVALID_BIT_INDEX = mask for every 64-bit mask. -/
def INVALID_BIT_INDEX : Nat := 2 ^ 64 - 1

/-- atomic_cmpxchg64 on a 64-bit cell: returns (new cell value, observed old
value); the store happens only when the old value equals `expected`. -/
def atomic_cmpxchg64 (mem expected desired : Nat) : Nat × Nat :=
  if mem = expected then (desired % 2 ^ 64, mem) else (mem, mem)

/-- One iteration of the claiming loop of smp_call_function:
atomic_cmpxchg64(&smp_call_mask, 0UL, mask & INVALID_BIT_INDEX).  The loop
exits (the call is claimed) exactly when the observed old value is 0. -/
def smp_call_claim (cur mask : Nat) : Nat × Nat :=
  atomic_cmpxchg64 cur 0 (mask &&& INVALID_BIT_INDEX)

/-- Mathematical disjointness of the half-open ranges [port, port+size) and
[base, base+len). -/
def pioDisjoint (port size base len : Nat) : Prop :=
  port + size ≤ base ∨ base + len ≤ port

/-- Mathematical containment of [port, port+size) in [base, base+len). -/
def pioContained (port size base len : Nat) : Prop :=
  base ≤ port ∧ port + size ≤ base + len

/-- Well-formedness of a port handler range: non-empty and lying strictly
inside the 16-bit port space, so that base + len does not wrap when truncated
to uint16 (the wrapping case is the subject of the C10 claim). -/
def pioHandlerWF (h : VmIoHandlerDesc) : Prop :=
  0 < h.len ∧ h.addr + h.len < 0x10000

/-- Mathematical disjointness for MMIO ranges. -/
def mmioDisjoint (address size : Nat) (g : MemIoNode) : Prop :=
  address + size ≤ g.range_start ∨ g.range_end ≤ address

/-- Mathematical containment for MMIO ranges. -/
def mmioContained (address size : Nat) (g : MemIoNode) : Prop :=
  g.range_start ≤ address ∧ address + size ≤ g.range_end

instance (port size base len : Nat) : Decidable (pioDisjoint port size base len) := by
  unfold pioDisjoint
  infer_instance

instance (port size base len : Nat) : Decidable (pioContained port size base len) := by
  unfold pioContained
  infer_instance

instance (address size : Nat) (g : MemIoNode) : Decidable (mmioDisjoint address size g) := by
  unfold mmioDisjoint
  infer_instance

instance (address size : Nat) (g : MemIoNode) : Decidable (mmioContained address size g) := by
  unfold mmioContained
  infer_instance

instance (h : VmIoHandlerDesc) : Decidable (pioHandlerWF h) := by
  unfold pioHandlerWF
  infer_instance

/-!  Theorems. -/

theorem pio_post_mask_eq (s : Nat) (hs : s = 1 ∨ s = 2 ∨ s = 4) :
    (0xFFFFFFFF : Nat) >>> (32 - 8 * s) = 2 ^ (8 * s) - 1 := by
  rcases hs with h | h | h <;> subst h <;> decide

theorem emulate_pio_post_read_testBit (rax : Nat) (pio : PioRequest)
    (hd : pio.direction = IoDirection.read)
    (hs : pio.size = 1 ∨ pio.size = 2 ∨ pio.size = 4) (i : Nat) :
    Nat.testBit (emulate_pio_post rax pio) i =
      if i < 8 * pio.size then Nat.testBit pio.value i
      else (Nat.testBit rax i && decide (i < 64)) := by
  unfold emulate_pio_post
  rw [if_pos hd, pio_post_mask_eq pio.size hs]
  rw [Nat.testBit_or, Nat.testBit_and, Nat.testBit_and, Nat.testBit_xor,
    Nat.testBit_two_pow_sub_one, Nat.testBit_two_pow_sub_one]
  by_cases hi : i < 8 * pio.size
  · have h64 : i < 64 := by rcases hs with h | h | h <;> omega
    simp [hi, h64]
  · by_cases h64 : i < 64
    · simp [hi, h64]
    · simp [hi, h64]

/-- C9: for a completed PORT_IO request, emulate_pio_post updates guest
register state only on a read; on a read exactly the low 8*size bits of RAX
are replaced by the read value and every other bit of RAX is preserved, and
on a write RAX is returned unchanged. -/
theorem emulate_pio_post_frame (rax : Nat) (pio : PioRequest)
    (hs : pio.size = 1 ∨ pio.size = 2 ∨ pio.size = 4) (hrax : rax < 2 ^ 64) :
    (pio.direction = IoDirection.read →
      (∀ i, i < 8 * pio.size →
        Nat.testBit (emulate_pio_post rax pio) i = Nat.testBit pio.value i) ∧
      (∀ i, 8 * pio.size ≤ i →
        Nat.testBit (emulate_pio_post rax pio) i = Nat.testBit rax i)) ∧
    (pio.direction = IoDirection.write → emulate_pio_post rax pio = rax) := by
  constructor
  · intro hd
    constructor
    · intro i hi
      rw [emulate_pio_post_read_testBit rax pio hd hs i, if_pos hi]
    · intro i hi
      rw [emulate_pio_post_read_testBit rax pio hd hs i, if_neg (by omega)]
      by_cases h64 : i < 64
      · simp [h64]
      · have hz : rax.testBit i = false := by
          apply Nat.testBit_lt_two_pow
          calc rax < 2 ^ 64 := hrax
            _ ≤ 2 ^ i := Nat.pow_le_pow_right (by norm_num) (by omega)
        simp [h64, hz]
  · intro hd
    simp [emulate_pio_post, hd]

/-- Witness for C9: a 1-byte read merges bit 0 of the value and keeps bit 8
of RAX; a write leaves RAX untouched. -/
theorem emulate_pio_post_frame_witness :
    Nat.testBit (emulate_pio_post 0x1122334455667788
        ⟨IoDirection.read, 0x60, 1, 0xAB⟩) 0 = Nat.testBit 0xAB 0 ∧
    Nat.testBit (emulate_pio_post 0x1122334455667788
        ⟨IoDirection.read, 0x60, 1, 0xAB⟩) 8 =
      Nat.testBit 0x1122334455667788 8 ∧
    emulate_pio_post 0x1122334455667788
        ⟨IoDirection.write, 0x60, 1, 0xAB⟩ = 0x1122334455667788 := by
  refine ⟨?_, ?_, ?_⟩
  · exact ((emulate_pio_post_frame _ _ (Or.inl rfl) (by decide)).1 rfl).1 0
      (by decide)
  · exact ((emulate_pio_post_frame _ _ (Or.inl rfl) (by decide)).1 rfl).2 8
      (by decide)
  · exact (emulate_pio_post_frame _ _ (Or.inl rfl) (by decide)).2 rfl

/-- C8: when the claiming compare-and-swap of smp_call_function succeeds (it
observes the all-clear value 0), the previous value was all-clear and the new
value of the global pending-call mask is exactly the caller-supplied mask. -/
theorem smp_call_claim_stores_mask (cur mask : Nat) (hm : mask < 2 ^ 64)
    (hclaim : (smp_call_claim cur mask).2 = 0) :
    cur = 0 ∧ (smp_call_claim cur mask).1 = mask := by
  have hland : mask &&& INVALID_BIT_INDEX = mask % 2 ^ 64 := by
    unfold INVALID_BIT_INDEX
    apply Nat.eq_of_testBit_eq
    intro i
    rw [Nat.testBit_and, Nat.testBit_two_pow_sub_one, Nat.testBit_mod_two_pow]
    cases Nat.testBit mask i <;> simp
  by_cases h : cur = 0
  · subst h
    refine ⟨rfl, ?_⟩
    show (atomic_cmpxchg64 0 0 (mask &&& INVALID_BIT_INDEX)).1 = mask
    unfold atomic_cmpxchg64
    rw [if_pos rfl]
    show (mask &&& INVALID_BIT_INDEX) % 2 ^ 64 = mask
    rw [hland, Nat.mod_eq_of_lt (Nat.mod_lt _ (by norm_num)),
      Nat.mod_eq_of_lt hm]
  · have h2 : (smp_call_claim cur mask).2 = cur := by
      unfold smp_call_claim atomic_cmpxchg64
      rw [if_neg h]
    rw [h2] at hclaim
    exact absurd hclaim h

/-- Witness for C8: claiming from the all-clear state with mask 0x15 stores
exactly 0x15. -/
theorem smp_call_claim_stores_mask_witness :
    (0 : Nat) = 0 ∧ (smp_call_claim 0 0x15).1 = 0x15 :=
  smp_call_claim_stores_mask 0 0x15 (by decide) (by decide)

/-- C10: a handler whose base plus length exceeds 0xFFFF has its end
truncated to 16 bits by hv_emulate_pio; every request with port at or above
the wrapped end (in particular every port at or above base, which the range
nominally covers) and port + size above base is classified as disjoint, so
the scan skips the handler and moves on to the rest of the list. -/
theorem hv_emulate_pio_wrapped_range_skipped (h : VmIoHandlerDesc)
    (rest : List VmIoHandlerDesc) (idx port size mask : Nat) (req : PioRequest)
    (ha : h.addr < 0x10000) (hl : h.len < 0x10000)
    (hwrap : 0x10000 ≤ h.addr + h.len)
    (hport : (h.addr + h.len) % 0x10000 ≤ port)
    (hover : h.addr < port + size) :
    pioScan port size mask req (h :: rest) idx =
      pioScan port size mask req rest (idx + 1) := by
  have hb : h.addr % 0x10000 = h.addr := Nat.mod_eq_of_lt ha
  have hln : h.len % 0x10000 = h.len := Nat.mod_eq_of_lt hl
  simp only [pioScan, hb, hln]
  rw [if_pos (Or.inl hport)]

/-- Witness for C10: a handler [0xFF00, 0xFF00+0x200) wraps to end 0x100, so
a request for port 0xFF80 (nominally inside the range) is skipped and the
scan falls off the empty tail with -ENODEV. -/
theorem hv_emulate_pio_wrapped_range_skipped_witness :
    pioScan 0xFF80 1 0xFF ⟨IoDirection.read, 0xFF80, 1, 0⟩
        [⟨0xFF00, 0x200, fun _ _ => 0⟩] 0 =
      (-ENODEV, ⟨IoDirection.read, 0xFF80, 1, 0⟩, ([] : List IoCallEvent)) := by
  rw [hv_emulate_pio_wrapped_range_skipped ⟨0xFF00, 0x200, fun _ _ => 0⟩ []
    0 0xFF80 1 0xFF ⟨IoDirection.read, 0xFF80, 1, 0⟩ (by decide) (by decide)
    (by decide) (by decide) (by decide)]
  rfl

theorem and_mask_pow2 (p k : Nat) : p &&& (2 ^ k - 1) = p % 2 ^ k := by
  apply Nat.eq_of_testBit_eq
  intro i
  rw [Nat.testBit_and, Nat.testBit_mod_two_pow, Nat.testBit_two_pow_sub_one]
  cases Nat.testBit p i <;> simp

theorem hi_bit_iff (p : Nat) (hp : p < 0x10000) :
    (p &&& 0x8000 ≠ 0) ↔ 0x8000 ≤ p := by
  have h1 : p &&& 0x8000 = (p.testBit 15).toNat * 32768 := by
    have h := Nat.and_two_pow p 15
    norm_num at h
    exact h
  have h2 : p.testBit 15 = decide (p / 32768 % 2 = 1) := by
    have h := Nat.testBit_to_div_mod (x := p) (i := 15)
    norm_num at h
    exact h
  rw [h1, h2]
  by_cases hc : p / 32768 % 2 = 1
  · simp only [hc, decide_True, Bool.toNat_true, one_mul]
    constructor
    · intro _; omega
    · intro _; omega
  · simp only [hc, decide_False, Bool.toNat_false, zero_mul]
    constructor
    · intro h; omega
    · intro h; exfalso; omega

theorem readWord_iobitmapSet (bm : IoBitmap) (hi b : Bool) (a i : Nat) :
    readWord (iobitmapSet bm hi a) b i =
      if b = hi ∧ i = a >>> 5 then readWord bm b i ||| (1 <<< (a &&& 0x1f))
      else readWord bm b i := by
  unfold readWord iobitmapSet
  cases hi <;> cases b <;> by_cases hw : i = a >>> 5 <;> simp [hw]

theorem readWord_iobitmapClear (bm : IoBitmap) (hi b : Bool) (a i : Nat) :
    readWord (iobitmapClear bm hi a) b i =
      if b = hi ∧ i = a >>> 5 then
        readWord bm b i &&& ((2 ^ 32 - 1) ^^^ (1 <<< (a &&& 0x1f)))
      else readWord bm b i := by
  unfold readWord iobitmapClear
  cases hi <;> cases b <;> by_cases hw : i = a >>> 5 <;> simp [hw]

theorem trapBit_set_true (bm : IoBitmap) (hi : Bool) (a p : Nat)
    (hp : trapBit bm p = true) : trapBit (iobitmapSet bm hi a) p = true := by
  simp only [trapBit] at hp ⊢
  rw [readWord_iobitmapSet]
  split
  · rw [Nat.testBit_or, hp]
    simp
  · exact hp

theorem trapBit_clear_false (bm : IoBitmap) (hi : Bool) (a p : Nat)
    (hp : trapBit bm p = false) : trapBit (iobitmapClear bm hi a) p = false := by
  simp only [trapBit] at hp ⊢
  rw [readWord_iobitmapClear]
  split
  · rw [Nat.testBit_and, hp]
    simp
  · exact hp

theorem trapBit_set_self (bm : IoBitmap) (p : Nat) :
    trapBit (iobitmapSet bm (decide (p &&& 0x8000 ≠ 0)) (p &&& 0x7fff)) p =
      true := by
  simp only [trapBit]
  rw [readWord_iobitmapSet, if_pos ⟨rfl, rfl⟩, Nat.testBit_or]
  have hbit : Nat.testBit (1 <<< ((p &&& 0x7fff) &&& 0x1f))
      ((p &&& 0x7fff) &&& 0x1f) = true := by
    rw [Nat.shiftLeft_eq, one_mul]
    exact Nat.testBit_two_pow_self
  rw [hbit]
  simp

theorem trapBit_clear_self (bm : IoBitmap) (p : Nat) :
    trapBit (iobitmapClear bm (decide (p &&& 0x8000 ≠ 0)) (p &&& 0x7fff)) p =
      false := by
  simp only [trapBit]
  rw [readWord_iobitmapClear, if_pos ⟨rfl, rfl⟩, Nat.testBit_and,
    Nat.testBit_xor, Nat.testBit_two_pow_sub_one]
  have hk : ((p &&& 0x7fff) &&& 0x1f) < 32 :=
    lt_of_le_of_lt Nat.and_le_right (by norm_num)
  have hbit : Nat.testBit (1 <<< ((p &&& 0x7fff) &&& 0x1f))
      ((p &&& 0x7fff) &&& 0x1f) = true := by
    rw [Nat.shiftLeft_eq, one_mul]
    exact Nat.testBit_two_pow_self
  rw [hbit]
  simp [hk]

theorem denyLoop_preserves_true (n : Nat) :
    ∀ (bm : IoBitmap) (hi : Bool) (addr p : Nat), trapBit bm p = true →
      trapBit (denyLoop bm hi addr n) p = true := by
  induction n with
  | zero => intro bm hi addr p hp; exact hp
  | succ m ih =>
    intro bm hi addr p hp
    simp only [denyLoop]
    exact ih _ _ _ _ (trapBit_set_true _ _ _ _ hp)

theorem allowLoop_preserves_false (n : Nat) :
    ∀ (bm : IoBitmap) (hi : Bool) (addr p : Nat), trapBit bm p = false →
      trapBit (allowLoop bm hi addr n) p = false := by
  induction n with
  | zero => intro bm hi addr p hp; exact hp
  | succ m ih =>
    intro bm hi addr p hp
    simp only [allowLoop]
    exact ih _ _ _ _ (trapBit_clear_false _ _ _ _ hp)

theorem stickyHi_eq (hi : Bool) (addr : Nat) (haddr : addr < 0x10000)
    (hinv : hi = true → 0x8000 ≤ addr) :
    (hi || decide (addr &&& 0x8000 ≠ 0)) = decide (0x8000 ≤ addr) := by
  cases hhi : hi
  · simp only [Bool.false_or]
    rw [decide_eq_decide]
    exact hi_bit_iff addr haddr
  · have h8 : 0x8000 ≤ addr := hinv hhi
    simp [h8]

theorem denyLoop_hits (n : Nat) :
    ∀ (bm : IoBitmap) (hi : Bool) (addr p : Nat),
      addr + n ≤ 0x10000 → (hi = true → 0x8000 ≤ addr) →
      addr ≤ p → p < addr + n →
      trapBit (denyLoop bm hi addr n) p = true := by
  induction n with
  | zero => intro bm hi addr p h1 h2 h3 h4; omega
  | succ m ih =>
    intro bm hi addr p h1 h2 h3 h4
    have haddr : addr < 0x10000 := by omega
    have hmod : (addr + 1) % 2 ^ 32 = addr + 1 := Nat.mod_eq_of_lt (by omega)
    simp only [denyLoop]
    rw [stickyHi_eq hi addr haddr h2, hmod]
    by_cases hp : p = addr
    · subst hp
      apply denyLoop_preserves_true
      have hdec : decide (0x8000 ≤ p) = decide (p &&& 0x8000 ≠ 0) := by
        rw [decide_eq_decide]
        exact (hi_bit_iff p haddr).symm
      rw [hdec]
      exact trapBit_set_self bm p
    · apply ih
      · omega
      · intro h
        have := of_decide_eq_true h
        omega
      · omega
      · omega

theorem allowLoop_hits (n : Nat) :
    ∀ (bm : IoBitmap) (hi : Bool) (addr p : Nat),
      addr + n ≤ 0x10000 → (hi = true → 0x8000 ≤ addr) →
      addr ≤ p → p < addr + n →
      trapBit (allowLoop bm hi addr n) p = false := by
  induction n with
  | zero => intro bm hi addr p h1 h2 h3 h4; omega
  | succ m ih =>
    intro bm hi addr p h1 h2 h3 h4
    have haddr : addr < 0x10000 := by omega
    have hmod : (addr + 1) % 2 ^ 32 = addr + 1 := Nat.mod_eq_of_lt (by omega)
    simp only [allowLoop]
    rw [stickyHi_eq hi addr haddr h2, hmod]
    by_cases hp : p = addr
    · subst hp
      apply allowLoop_preserves_false
      have hdec : decide (0x8000 ≤ p) = decide (p &&& 0x8000 ≠ 0) := by
        rw [decide_eq_decide]
        exact (hi_bit_iff p haddr).symm
      rw [hdec]
      exact trapBit_clear_self bm p
    · apply ih
      · omega
      · intro h
        have := of_decide_eq_true h
        omega
      · omega
      · omega

/-- C5 counterexample: on an all-zero bitmap (no port trapped), allow
followed by deny on the one-port range at port 0 leaves the trap bit of port
0 set, while the original trap bit was clear — so the round trip does not
restore the original bit. -/
theorem allow_deny_roundtrip_counterexample :
    trapBit (deny_guest_io_access
        (allow_guest_io_access ⟨fun _ => 0, fun _ => 0⟩ 0 1) 0 1) 0 = true ∧
    trapBit (⟨fun _ => 0, fun _ => 0⟩ : IoBitmap) 0 = false := by
  constructor
  · rfl
  · rfl

/-- C5 amended: deny unconditionally sets and allow unconditionally clears
the trap bit of every port in the range, so allow-then-deny leaves every port
in the range denied and deny-then-allow leaves it allowed (the original bit
is restored exactly when it already had that value), for every range inside
the 16-bit port space. -/
theorem allow_deny_roundtrip_amended (bm : IoBitmap) (base n p : Nat)
    (hrange : base + n ≤ 0x10000) (hlo : base ≤ p) (hhi : p < base + n) :
    trapBit (deny_guest_io_access
        (allow_guest_io_access bm base n) base n) p = true ∧
    trapBit (allow_guest_io_access
        (deny_guest_io_access bm base n) base n) p = false := by
  have hb : base % 2 ^ 32 = base := Nat.mod_eq_of_lt (by omega)
  have hn : n % 2 ^ 32 = n := Nat.mod_eq_of_lt (by omega)
  constructor
  · unfold deny_guest_io_access
    rw [hb, hn]
    exact denyLoop_hits n _ false base p hrange
      (fun h => Bool.noConfusion h) hlo hhi
  · unfold allow_guest_io_access
    rw [hb, hn]
    exact allowLoop_hits n _ false base p hrange
      (fun h => Bool.noConfusion h) hlo hhi

/-- Witness for the amended C5 at the range [0x60, 0x64) and port 0x62,
starting from the all-zero bitmap. -/
theorem allow_deny_roundtrip_amended_witness :
    trapBit (deny_guest_io_access
        (allow_guest_io_access ⟨fun _ => 0, fun _ => 0⟩ 0x60 4) 0x60 4) 0x62 =
      true ∧
    trapBit (allow_guest_io_access
        (deny_guest_io_access ⟨fun _ => 0, fun _ => 0⟩ 0x60 4) 0x60 4) 0x62 =
      false :=
  allow_deny_roundtrip_amended ⟨fun _ => 0, fun _ => 0⟩ 0x60 4 0x62
    (by norm_num) (by norm_num) (by norm_num)

theorem pioScan_skip_disjoint (pre : List VmIoHandlerDesc) :
    ∀ (rest : List VmIoHandlerDesc) (idx port size mask : Nat)
      (req : PioRequest),
      (∀ g ∈ pre, pioHandlerWF g) →
      (∀ g ∈ pre, pioDisjoint port size g.addr g.len) →
      pioScan port size mask req (pre ++ rest) idx =
        pioScan port size mask req rest (idx + pre.length) := by
  induction pre with
  | nil =>
    intro rest idx port size mask req _ _
    simp
  | cons g gs ih =>
    intro rest idx port size mask req hwf hdisj
    obtain ⟨hlen, hbound⟩ := hwf g (List.mem_cons_self g gs)
    have ha : g.addr % 0x10000 = g.addr := Nat.mod_eq_of_lt (by omega)
    have hl : g.len % 0x10000 = g.len := Nat.mod_eq_of_lt (by omega)
    have hd := hdisj g (List.mem_cons_self g gs)
    simp only [List.cons_append, pioScan, ha, hl]
    have hsum : (g.addr + g.len) % 0x10000 = g.addr + g.len :=
      Nat.mod_eq_of_lt hbound
    rw [hsum]
    have hcond1 : g.addr + g.len ≤ port ∨ port + size ≤ g.addr := by
      rcases hd with h | h
      · exact Or.inr h
      · exact Or.inl h
    rw [if_pos hcond1]
    have hrec := ih rest (idx + 1) port size mask req
      (fun x hx => hwf x (List.mem_cons_of_mem g hx))
      (fun x hx => hdisj x (List.mem_cons_of_mem g hx))
    have hlen2 : idx + 1 + gs.length = idx + (g :: gs).length := by
      simp only [List.length_cons]
      omega
    rw [← hlen2]
    exact hrec

theorem pioScan_contained (h : VmIoHandlerDesc) (rest : List VmIoHandlerDesc)
    (idx port size mask : Nat) (req : PioRequest)
    (hwf : pioHandlerWF h) (hsz : 0 < size)
    (hc : pioContained port size h.addr h.len) :
    pioScan port size mask req (h :: rest) idx =
      if req.direction = IoDirection.write then
        (0, req, [IoCallEvent.pioWrite idx port size (req.value &&& mask)])
      else
        (0, { req with value := h.readRet port size % 0x100000000 },
         [IoCallEvent.pioRead idx port size]) := by
  obtain ⟨hlen, hbound⟩ := hwf
  obtain ⟨hc1, hc2⟩ := hc
  have ha : h.addr % 0x10000 = h.addr := Nat.mod_eq_of_lt (by omega)
  have hl : h.len % 0x10000 = h.len := Nat.mod_eq_of_lt (by omega)
  simp only [pioScan, ha, hl]
  have hsum : (h.addr + h.len) % 0x10000 = h.addr + h.len :=
    Nat.mod_eq_of_lt hbound
  rw [hsum]
  have hcond1 : ¬ (h.addr + h.len ≤ port ∨ port + size ≤ h.addr) := by
    intro hcon
    rcases hcon with hcon | hcon <;> omega
  rw [if_neg hcond1]
  have hcond2 : ¬ ¬ (h.addr ≤ port ∧ port + size ≤ h.addr + h.len) :=
    not_not_intro ⟨hc1, hc2⟩
  rw [if_neg hcond2]

theorem pioScan_spanning_at (h : VmIoHandlerDesc) (rest : List VmIoHandlerDesc)
    (idx port size mask : Nat) (req : PioRequest)
    (hwf : pioHandlerWF h)
    (hnd : ¬ pioDisjoint port size h.addr h.len)
    (hnc : ¬ pioContained port size h.addr h.len) :
    pioScan port size mask req (h :: rest) idx = (-EIO_, req, []) := by
  obtain ⟨hlen, hbound⟩ := hwf
  have ha : h.addr % 0x10000 = h.addr := Nat.mod_eq_of_lt (by omega)
  have hl : h.len % 0x10000 = h.len := Nat.mod_eq_of_lt (by omega)
  simp only [pioScan, ha, hl]
  have hsum : (h.addr + h.len) % 0x10000 = h.addr + h.len :=
    Nat.mod_eq_of_lt hbound
  rw [hsum]
  have hcond1 : ¬ (h.addr + h.len ≤ port ∨ port + size ≤ h.addr) := by
    intro hcon
    apply hnd
    rcases hcon with hcon | hcon
    · exact Or.inr hcon
    · exact Or.inl hcon
  rw [if_neg hcond1]
  have hcond2 : ¬ (h.addr ≤ port ∧ port + size ≤ h.addr + h.len) :=
    fun hcon => hnc ⟨hcon.1, hcon.2⟩
  rw [if_pos hcond2]

theorem pioScan_enodev (l : List VmIoHandlerDesc) :
    ∀ (idx port size mask : Nat) (req : PioRequest),
      (pioScan port size mask req l idx).1 = -ENODEV →
      pioScan port size mask req l idx = (-ENODEV, req, []) := by
  induction l with
  | nil => intro idx port size mask req _; rfl
  | cons h rest ih =>
    intro idx port size mask req hyp
    simp only [pioScan] at hyp ⊢
    split_ifs at hyp ⊢ with h1 h2 h3
    · exact ih (idx + 1) port size mask req hyp
    · exact absurd hyp (by norm_num [EIO_, ENODEV])
    · exact absurd hyp (by norm_num [EIO_, ENODEV])
    · exact absurd hyp (by norm_num [EIO_, ENODEV])

theorem hv_emulate_pio_enodev (handlers : List VmIoHandlerDesc)
    (req : PioRequest)
    (hmiss : (hv_emulate_pio handlers req).1 = -ENODEV) :
    hv_emulate_pio handlers req = (-ENODEV, req, []) := by
  simp only [hv_emulate_pio] at hmiss ⊢
  exact pioScan_enodev handlers 0 _ _ _ req hmiss

theorem mmioScan_skip_disjoint (pre : List MemIoNode) :
    ∀ (rest : List MemIoNode) (idx address size : Nat),
      address + size < 2 ^ 64 →
      (∀ x ∈ pre, x.range_start < 2 ^ 64 ∧ x.range_end < 2 ^ 64) →
      (∀ x ∈ pre, mmioDisjoint address size x) →
      mmioScan address size (pre ++ rest) idx =
        mmioScan address size rest (idx + pre.length) := by
  induction pre with
  | nil =>
    intro rest idx address size _ _ _
    simp
  | cons g gs ih =>
    intro rest idx address size hfit hwf hdisj
    obtain ⟨hs, he⟩ := hwf g (List.mem_cons_self g gs)
    have ha : g.range_start % 2 ^ 64 = g.range_start := Nat.mod_eq_of_lt hs
    have hl : g.range_end % 2 ^ 64 = g.range_end := Nat.mod_eq_of_lt he
    have hsum : (address + size) % 2 ^ 64 = address + size :=
      Nat.mod_eq_of_lt hfit
    have hd := hdisj g (List.mem_cons_self g gs)
    simp only [List.cons_append, mmioScan, ha, hl, hsum]
    have hcond1 : address + size ≤ g.range_start ∨ g.range_end ≤ address := hd
    rw [if_pos hcond1]
    have hrec := ih rest (idx + 1) address size hfit
      (fun x hx => hwf x (List.mem_cons_of_mem g hx))
      (fun x hx => hdisj x (List.mem_cons_of_mem g hx))
    have hlen2 : idx + 1 + gs.length = idx + (g :: gs).length := by
      simp only [List.length_cons]
      omega
    rw [← hlen2]
    exact hrec

theorem mmioScan_spanning_at (g : MemIoNode) (rest : List MemIoNode)
    (idx address size : Nat)
    (hfit : address + size < 2 ^ 64)
    (hwf : g.range_start < 2 ^ 64 ∧ g.range_end < 2 ^ 64)
    (hnd : ¬ mmioDisjoint address size g)
    (hnc : ¬ mmioContained address size g) :
    mmioScan address size (g :: rest) idx = (-EIO_, []) := by
  obtain ⟨hs, he⟩ := hwf
  have ha : g.range_start % 2 ^ 64 = g.range_start := Nat.mod_eq_of_lt hs
  have hl : g.range_end % 2 ^ 64 = g.range_end := Nat.mod_eq_of_lt he
  have hsum : (address + size) % 2 ^ 64 = address + size :=
    Nat.mod_eq_of_lt hfit
  simp only [mmioScan, ha, hl, hsum]
  have hcond1 : ¬ (address + size ≤ g.range_start ∨ g.range_end ≤ address) :=
    fun hcon => hnd hcon
  rw [if_neg hcond1]
  have hcond2 : ¬ (g.range_start ≤ address ∧ address + size ≤ g.range_end) :=
    fun hcon => hnc ⟨hcon.1, hcon.2⟩
  rw [if_pos hcond2]

/-- C1: hv_emulate_pio scans the handler list in order and behaves by
trichotomy over the mathematical half-open ranges [base, base+len) versus
[port, port+size): (a) if every handler's range is disjoint from the request
range the scan exhausts the list and returns -ENODEV with no callback; (b) if
the request range is fully contained in the range of the first non-disjoint
handler, exactly that handler's callback fires (the write callback with the
value masked to size bytes on a write, the read callback with its result
recorded in the request on a read) and the result is 0; (c) if the first
non-disjoint handler overlaps the request range only partially, the scan
aborts with -EIO and no callback fires.  Handlers are assumed well formed
(non-empty range lying inside the 16-bit port space — a handler whose base
plus length wraps past 0xFFFF is the separate C10 claim), and the request is
assumed to satisfy the documented invariant that [port, port+size) lies
within the 16-bit port space. -/
theorem hv_emulate_pio_trichotomy (handlers : List VmIoHandlerDesc)
    (req : PioRequest)
    (hwf : ∀ g ∈ handlers, pioHandlerWF g)
    (hsz : 0 < req.size) (hszhi : req.size < 0x10000)
    (hfit : req.address + req.size ≤ 0x10000) :
    ((∀ g ∈ handlers, pioDisjoint req.address req.size g.addr g.len) →
      hv_emulate_pio handlers req = (-ENODEV, req, [])) ∧
    (∀ pre h post, handlers = pre ++ h :: post →
      (∀ g ∈ pre, pioDisjoint req.address req.size g.addr g.len) →
      pioContained req.address req.size h.addr h.len →
      ((req.direction = IoDirection.write →
        hv_emulate_pio handlers req =
          ((0 : Int), req, [IoCallEvent.pioWrite pre.length req.address req.size
            (req.value &&& (0xFFFFFFFF >>> (32 - 8 * req.size)))])) ∧
       (req.direction = IoDirection.read →
        hv_emulate_pio handlers req =
          ((0 : Int), { req with value := h.readRet req.address req.size % 0x100000000 },
           [IoCallEvent.pioRead pre.length req.address req.size])))) ∧
    (∀ pre h post, handlers = pre ++ h :: post →
      (∀ g ∈ pre, pioDisjoint req.address req.size g.addr g.len) →
      ¬ pioDisjoint req.address req.size h.addr h.len →
      ¬ pioContained req.address req.size h.addr h.len →
      hv_emulate_pio handlers req = (-EIO_, req, [])) := by
  have haddr : req.address < 0x10000 := by omega
  have hmodp : req.address % 0x10000 = req.address := Nat.mod_eq_of_lt haddr
  have hmods : req.size % 0x10000 = req.size := Nat.mod_eq_of_lt hszhi
  have key : hv_emulate_pio handlers req =
      pioScan req.address req.size (0xFFFFFFFF >>> (32 - 8 * req.size)) req
        handlers 0 := by
    simp only [hv_emulate_pio, hmodp, hmods]
  refine ⟨?_, ?_, ?_⟩
  · intro hd
    have h1 := pioScan_skip_disjoint handlers [] 0 req.address req.size
      (0xFFFFFFFF >>> (32 - 8 * req.size)) req hwf hd
    rw [List.append_nil] at h1
    rw [key, h1]
    rfl
  · intro pre h post heq hdpre hc
    subst heq
    rw [key, pioScan_skip_disjoint pre (h :: post) 0 req.address req.size
      (0xFFFFFFFF >>> (32 - 8 * req.size)) req
      (fun g hg => hwf g (List.mem_append_left _ hg)) hdpre]
    rw [pioScan_contained h post (0 + pre.length) req.address req.size
      (0xFFFFFFFF >>> (32 - 8 * req.size)) req
      (hwf h (List.mem_append_right _ (List.mem_cons_self h post))) hsz hc]
    constructor
    · intro hdir
      rw [if_pos hdir]
      rw [Nat.zero_add]
    · intro hdir
      rw [if_neg (by rw [hdir]; intro hcon; cases hcon)]
      rw [Nat.zero_add]
  · intro pre h post heq hdpre hnd hnc
    subst heq
    rw [key, pioScan_skip_disjoint pre (h :: post) 0 req.address req.size
      (0xFFFFFFFF >>> (32 - 8 * req.size)) req
      (fun g hg => hwf g (List.mem_append_left _ hg)) hdpre]
    exact pioScan_spanning_at h post (0 + pre.length) req.address req.size
      (0xFFFFFFFF >>> (32 - 8 * req.size)) req
      (hwf h (List.mem_append_right _ (List.mem_cons_self h post))) hnd hnc

/-- Witness for C1: a handler for [0x60, 0x64) returning 0xAB serves a
one-byte read of port 0x60 as the unique matching callback. -/
theorem hv_emulate_pio_trichotomy_witness :
    hv_emulate_pio [⟨0x60, 4, fun _ _ => 0xAB⟩]
        ⟨IoDirection.read, 0x60, 1, 0⟩ =
      ((0 : Int), ⟨IoDirection.read, 0x60, 1, 0xAB⟩,
       [IoCallEvent.pioRead 0 0x60 1]) := by
  have h := hv_emulate_pio_trichotomy [⟨0x60, 4, fun _ _ => 0xAB⟩]
    ⟨IoDirection.read, 0x60, 1, 0⟩
    (by decide) (by decide) (by decide) (by decide)
  have h2 := (h.2.1 [] ⟨0x60, 4, fun _ _ => 0xAB⟩ [] rfl
    (by intro g hg; cases hg) (by decide)).2 rfl
  exact h2

/-- C3 counterexample: with handlers [0,4) and [2,8) registered in that scan
order, the read request [0,4) partially overlaps the registered range [2,8)
without being contained in it, yet dispatch returns success 0 and invokes the
first handler's callback — because the fully containing handler [0,4) is
scanned first.  This refutes the claim that a partial overlap with some
registered range forces the SpanningRequest error regardless of the position
of that range in the list. -/
theorem dispatch_spanning_universal_counterexample :
    (hv_emulate_pio [⟨0, 4, fun _ _ => 0xAB⟩, ⟨2, 6, fun _ _ => 0xCD⟩]
        ⟨IoDirection.read, 0, 4, 0⟩).1 = 0 ∧
    (hv_emulate_pio [⟨0, 4, fun _ _ => 0xAB⟩, ⟨2, 6, fun _ _ => 0xCD⟩]
        ⟨IoDirection.read, 0, 4, 0⟩).2.2 = [IoCallEvent.pioRead 0 0 4] ∧
    ¬ pioDisjoint 0 4 2 6 ∧ ¬ pioContained 0 4 2 6 := by
  refine ⟨rfl, rfl, by decide, by decide⟩

/-- C3 amended: a partially overlapping range forces the -EIO spanning error
with no callback invoked exactly when that range is the first non-disjoint
range in scan order — an earlier handler that fully contains the request
claims it first.  The amended statement holds for both the port dispatcher
and the MMIO dispatcher. -/
theorem dispatch_spanning_first_match :
    (∀ (pre post : List VmIoHandlerDesc) (h : VmIoHandlerDesc)
       (req : PioRequest),
      (∀ g ∈ pre ++ h :: post, pioHandlerWF g) →
      0 < req.size → req.size < 0x10000 →
      req.address + req.size ≤ 0x10000 →
      (∀ g ∈ pre, pioDisjoint req.address req.size g.addr g.len) →
      ¬ pioDisjoint req.address req.size h.addr h.len →
      ¬ pioContained req.address req.size h.addr h.len →
      hv_emulate_pio (pre ++ h :: post) req = (-EIO_, req, [])) ∧
    (∀ (pre post : List MemIoNode) (g : MemIoNode) (req : MmioRequest),
      (∀ x ∈ pre ++ g :: post, x.range_start < 2 ^ 64 ∧ x.range_end < 2 ^ 64) →
      req.address + req.size < 2 ^ 64 →
      (∀ x ∈ pre, mmioDisjoint req.address req.size x) →
      ¬ mmioDisjoint req.address req.size g →
      ¬ mmioContained req.address req.size g →
      hv_emulate_mmio (pre ++ g :: post) req = (-EIO_, [])) := by
  constructor
  · intro pre post h req hwf hsz hszhi hfit hdpre hnd hnc
    have haddr : req.address < 0x10000 := by omega
    have hmodp : req.address % 0x10000 = req.address := Nat.mod_eq_of_lt haddr
    have hmods : req.size % 0x10000 = req.size := Nat.mod_eq_of_lt hszhi
    simp only [hv_emulate_pio, hmodp, hmods]
    rw [pioScan_skip_disjoint pre (h :: post) 0 req.address req.size
      (0xFFFFFFFF >>> (32 - 8 * req.size)) req
      (fun g hg => hwf g (List.mem_append_left _ hg)) hdpre]
    exact pioScan_spanning_at h post (0 + pre.length) req.address req.size
      (0xFFFFFFFF >>> (32 - 8 * req.size)) req
      (hwf h (List.mem_append_right _ (List.mem_cons_self h post))) hnd hnc
  · intro pre post g req hwf hfit hdpre hnd hnc
    have haddr : req.address < 2 ^ 64 := by omega
    have hsize : req.size < 2 ^ 64 := by omega
    have hmodp : req.address % 2 ^ 64 = req.address := Nat.mod_eq_of_lt haddr
    have hmods : req.size % 2 ^ 64 = req.size := Nat.mod_eq_of_lt hsize
    simp only [hv_emulate_mmio, hmodp, hmods]
    rw [mmioScan_skip_disjoint pre (g :: post) 0 req.address req.size hfit
      (fun x hx => hwf x (List.mem_append_left _ hx)) hdpre]
    exact mmioScan_spanning_at g post (0 + pre.length) req.address req.size
      hfit (hwf g (List.mem_append_right _ (List.mem_cons_self g post)))
      hnd hnc

/-- Witness for the amended C3: a one-handler list [0x60, 0x64) with the
4-byte read [0x62, 0x66) spans the boundary and yields -EIO with no callback,
and the MMIO handler [0x1000, 0x2000) with the 4-byte access at 0x1FFE does
the same. -/
theorem dispatch_spanning_first_match_witness :
    hv_emulate_pio [⟨0x60, 4, fun _ _ => 0xAB⟩]
        ⟨IoDirection.read, 0x62, 4, 0⟩ =
      (-EIO_, ⟨IoDirection.read, 0x62, 4, 0⟩, ([] : List IoCallEvent)) ∧
    hv_emulate_mmio [⟨0x1000, 0x2000, 0⟩] ⟨IoDirection.read, 0x1FFE, 4, 0⟩ =
      (-EIO_, ([] : List IoCallEvent)) := by
  constructor
  · exact dispatch_spanning_first_match.1 [] [] ⟨0x60, 4, fun _ _ => 0xAB⟩
      ⟨IoDirection.read, 0x62, 4, 0⟩ (by decide) (by decide) (by decide)
      (by decide) (by intro g hg; cases hg) (by decide) (by decide)
  · exact dispatch_spanning_first_match.2 [] [] ⟨0x1000, 0x2000, 0⟩
      ⟨IoDirection.read, 0x1FFE, 4, 0⟩ (by decide) (by decide)
      (by intro x hx; cases hx) (by decide) (by decide)

/-- C2: emulate_io_post does nothing when the shared slot is invalid or its
marker is not COMPLETE; for a zombie vCPU it consumes the slot (validity
cleared, marker FREE) without resuming; otherwise it resumes the vCPU after
the kind-specific post-processing — the MMIO pre-work request (slot left to
the later MMIO post step), the shared PORT_IO/PCI-config path (value copied
out of the slot, slot freed, RAX recomputed by emulate_pio_post), or the
plain slot release for any other kind. -/
theorem emulate_io_post_cases (v : Vcpu) (vhm : VhmRequest) :
    (vhm.valid = 0 ∨ vhm.processed ≠ VhmState.complete →
      emulate_io_post v vhm = (v, vhm, false)) ∧
    (vhm.valid ≠ 0 → vhm.processed = VhmState.complete →
      v.lifeState = VcpuLifeState.zombie →
      emulate_io_post v vhm = (v, complete_ioreq vhm, false)) ∧
    (vhm.valid ≠ 0 → vhm.processed = VhmState.complete →
      v.lifeState ≠ VcpuLifeState.zombie →
      (emulate_io_post v vhm).2.2 = true ∧
      (v.req.rtype = IoReqType.mmio →
        emulate_io_post v vhm = ({ v with mmioPreWork := true }, vhm, true)) ∧
      ((v.req.rtype = IoReqType.portio ∨ v.req.rtype = IoReqType.pcicfg) →
        (emulate_io_post v vhm).1.req.pio.value = vhm.pioValue ∧
        (emulate_io_post v vhm).2.1 = complete_ioreq vhm ∧
        (emulate_io_post v vhm).1.rax =
          emulate_pio_post v.rax { v.req.pio with value := vhm.pioValue }) ∧
      (v.req.rtype = IoReqType.wp →
        emulate_io_post v vhm = (v, complete_ioreq vhm, true))) := by
  refine ⟨?_, ?_, ?_⟩
  · intro h
    simp only [emulate_io_post, if_pos h]
  · intro hv hc hz
    have hcond : ¬ (vhm.valid = 0 ∨ vhm.processed ≠ VhmState.complete) :=
      fun h => h.elim hv (fun h2 => h2 hc)
    simp only [emulate_io_post, if_neg hcond, if_pos hz]
  · intro hv hc hz
    have hcond : ¬ (vhm.valid = 0 ∨ vhm.processed ≠ VhmState.complete) :=
      fun h => h.elim hv (fun h2 => h2 hc)
    refine ⟨?_, ?_, ?_, ?_⟩
    · rcases hrt : v.req.rtype <;>
        simp only [emulate_io_post, if_neg hcond, if_neg hz, hrt]
    · intro hmm
      simp only [emulate_io_post, if_neg hcond, if_neg hz, hmm]
    · intro hp
      rcases hp with hp | hp <;>
        simp only [emulate_io_post, if_neg hcond, if_neg hz, hp] <;>
        exact ⟨rfl, rfl, rfl⟩
    · intro hw
      simp only [emulate_io_post, if_neg hcond, if_neg hz, hw]

/-- Witness for C2: an invalid slot is ignored, a zombie vCPU's completed
slot is freed without resuming, and a running vCPU's completed PORT_IO slot
has its value copied back and the vCPU resumed. -/
theorem emulate_io_post_cases_witness :
    (emulate_io_post
      ⟨VcpuLifeState.running,
       ⟨IoReqType.portio, VhmState.pending, ⟨IoDirection.read, 0x60, 1, 0⟩,
        ⟨IoDirection.read, 0, 4, 0⟩⟩, 0, false⟩
      ⟨0, VhmState.complete, 7, 0⟩).2.2 = false ∧
    (emulate_io_post
      ⟨VcpuLifeState.zombie,
       ⟨IoReqType.portio, VhmState.pending, ⟨IoDirection.read, 0x60, 1, 0⟩,
        ⟨IoDirection.read, 0, 4, 0⟩⟩, 0, false⟩
      ⟨1, VhmState.complete, 7, 0⟩).2.1.processed = VhmState.free ∧
    (emulate_io_post
      ⟨VcpuLifeState.running,
       ⟨IoReqType.portio, VhmState.pending, ⟨IoDirection.read, 0x60, 1, 0⟩,
        ⟨IoDirection.read, 0, 4, 0⟩⟩, 0, false⟩
      ⟨1, VhmState.complete, 7, 0⟩).1.req.pio.value = 7 ∧
    (emulate_io_post
      ⟨VcpuLifeState.running,
       ⟨IoReqType.portio, VhmState.pending, ⟨IoDirection.read, 0x60, 1, 0⟩,
        ⟨IoDirection.read, 0, 4, 0⟩⟩, 0, false⟩
      ⟨1, VhmState.complete, 7, 0⟩).2.2 = true := by
  refine ⟨?_, ?_, ?_, ?_⟩
  · rw [(emulate_io_post_cases _ _).1 (Or.inl rfl)]
  · rw [(emulate_io_post_cases _ _).2.1 (by decide) rfl rfl]
    rfl
  · exact (((emulate_io_post_cases _ _).2.2 (by decide) rfl
      (by decide)).2.2.1 (Or.inl rfl)).1
  · exact ((emulate_io_post_cases _ _).2.2 (by decide) rfl (by decide)).1

/-- C6: in partition mode, when the port dispatcher returns -ENODEV for a
PORT_IO request, emulate_io synthesizes the response locally: the request's
value becomes 0xFFFFFFFF on a read (whose low 8*size bits the PORT_IO post
step then merges into RAX, i.e. the value masked to the requested size is all
ones), a write is discarded (the pio payload is untouched), the request is
marked COMPLETE, emulate_io returns 0, and no cross-domain hand-off
(vhmInsert) occurs. -/
theorem emulate_io_partition_notfound (vm : Vm) (req : IoRequest)
    (insertStatus : Int)
    (ht : req.rtype = IoReqType.portio)
    (hmiss : (hv_emulate_pio vm.ioHandlers req.pio).1 = -ENODEV) :
    emulate_io true insertStatus vm req =
      ((0 : Int), io_instr_dest_handler req, []) ∧
    (io_instr_dest_handler req).processed = VhmState.complete ∧
    (req.pio.direction = IoDirection.read →
      (io_instr_dest_handler req).pio = { req.pio with value := 0xFFFFFFFF }) ∧
    (req.pio.direction = IoDirection.write →
      (io_instr_dest_handler req).pio = req.pio) ∧
    IoCallEvent.vhmInsert ∉ (emulate_io true insertStatus vm req).2.2 ∧
    (req.pio.direction = IoDirection.read →
      req.pio.size = 1 ∨ req.pio.size = 2 ∨ req.pio.size = 4 →
      ∀ rax i, i < 8 * req.pio.size →
        Nat.testBit (emulate_pio_post rax
          (emulate_io true insertStatus vm req).2.1.pio) i = true) := by
  have hscan := hv_emulate_pio_enodev vm.ioHandlers req.pio hmiss
  have hdisp : emulate_io_dispatch vm req = (-ENODEV, req, []) := by
    obtain ⟨rt, prc, pio, mm⟩ := req
    change rt = IoReqType.portio at ht
    subst ht
    simp only [emulate_io_dispatch]
    rw [hscan]
  have hio : emulate_io true insertStatus vm req =
      ((0 : Int), io_instr_dest_handler req, []) := by
    simp only [emulate_io, hdisp]
    norm_num
  refine ⟨hio, ?_, ?_, ?_, ?_, ?_⟩
  · simp [io_instr_dest_handler]
  · intro hd
    simp [io_instr_dest_handler, hd]
  · intro hd
    simp [io_instr_dest_handler, hd]
  · rw [hio]
    simp
  · intro hd hs rax i hi
    rw [hio]
    have hpio : (io_instr_dest_handler req).pio =
        { req.pio with value := 0xFFFFFFFF } := by
      simp [io_instr_dest_handler, hd]
    show Nat.testBit (emulate_pio_post rax (io_instr_dest_handler req).pio) i =
      true
    rw [hpio]
    have hd' : ({ req.pio with value := 0xFFFFFFFF } : PioRequest).direction =
        IoDirection.read := hd
    have hs' : ({ req.pio with value := 0xFFFFFFFF } : PioRequest).size = 1 ∨
        ({ req.pio with value := 0xFFFFFFFF } : PioRequest).size = 2 ∨
        ({ req.pio with value := 0xFFFFFFFF } : PioRequest).size = 4 := hs
    rw [emulate_pio_post_read_testBit rax _ hd' hs' i]
    rw [if_pos (show i < 8 * ({ req.pio with value := 0xFFFFFFFF } :
      PioRequest).size from hi)]
    have h32 : i < 32 := by rcases hs with h | h | h <;> omega
    rw [show (0xFFFFFFFF : Nat) = 2 ^ 32 - 1 by norm_num,
      Nat.testBit_two_pow_sub_one]
    simpa using h32

/-- Witness for C6: no handler is registered for port 0x3F8, so in partition
mode a 1-byte read gets value 0xFFFFFFFF, is marked COMPLETE, and emulate_io
returns 0. -/
theorem emulate_io_partition_notfound_witness :
    (emulate_io true 0 ⟨false, [], ⟨fun _ => 0, fun _ => 0⟩, [], [], []⟩
      ⟨IoReqType.portio, VhmState.pending, ⟨IoDirection.read, 0x3F8, 1, 0⟩,
       ⟨IoDirection.read, 0, 4, 0⟩⟩).1 = 0 ∧
    (emulate_io true 0 ⟨false, [], ⟨fun _ => 0, fun _ => 0⟩, [], [], []⟩
      ⟨IoReqType.portio, VhmState.pending, ⟨IoDirection.read, 0x3F8, 1, 0⟩,
       ⟨IoDirection.read, 0, 4, 0⟩⟩).2.1.pio.value = 0xFFFFFFFF ∧
    (emulate_io true 0 ⟨false, [], ⟨fun _ => 0, fun _ => 0⟩, [], [], []⟩
      ⟨IoReqType.portio, VhmState.pending, ⟨IoDirection.read, 0x3F8, 1, 0⟩,
       ⟨IoDirection.read, 0, 4, 0⟩⟩).2.1.processed = VhmState.complete := by
  have h := emulate_io_partition_notfound
    ⟨false, [], ⟨fun _ => 0, fun _ => 0⟩, [], [], []⟩
    ⟨IoReqType.portio, VhmState.pending, ⟨IoDirection.read, 0x3F8, 1, 0⟩,
     ⟨IoDirection.read, 0, 4, 0⟩⟩ 0 rfl rfl
  refine ⟨?_, ?_, ?_⟩
  · rw [h.1]
  · rw [h.1]
    rw [h.2.2.1 rfl]
  · rw [h.1]
    exact h.2.1

/-- C4 (code-bug evidence): with one handler already registered, an
allocation failure inside register_io_emulation_handler passes the NULL
handler pointer to register_io_handler, which writes hdlr->next through it —
a null-pointer dereference (modelled as Except.error ()) instead of the
graceful failure the spec describes; had the list been empty, the head would
be overwritten with NULL, also losing the invariant that registration leaves
previous handlers reachable. -/
theorem register_port_handler_alloc_failure_null_deref :
    register_io_emulation_handler
        ⟨false, [⟨0x60, 4, fun _ _ => 0xAB⟩], ⟨fun _ => 0, fun _ => 0⟩,
         [], [], []⟩
        0x70 2 (some (fun _ _ => 0)) true false = Except.error () := rfl

/-- C7 counterexample: a machine with two created vCPUs where only the second
has launched (vcpu_array[0] has not) accepts an MMIO handler registration
with status 0 — the guard only inspects vcpu_array[0]->launched, so the
claim that registration fails when any virtual core has started running is
false. -/
theorem register_mmio_launched_guard_counterexample :
    (register_mmio_emulation_handler
        ⟨false, [], ⟨fun _ => 0, fun _ => 0⟩, [], [false, true], []⟩
        (some 0) 0x1000 0x2000 true).1 = 0 ∧
    (⟨false, [], ⟨fun _ => 0, fun _ => 0⟩, [], [false, true], []⟩ :
        Vm).vcpuLaunched.any (fun b => b) = true :=
  ⟨rfl, rfl⟩

/-- C7 amended: register_mmio_emulation_handler returns -EINVAL (leaving the
machine untouched) when the machine has created vCPUs and its FIRST vCPU
(vcpu_array[0]) has launched, when the callback is null, when end <= start,
or when allocation fails; it returns 0 exactly when none of these hold, in
which case the node is added at the head of the MMIO list and the stage-2
unmap of [start, end) is requested for the privileged machine only. -/
theorem register_mmio_handler_spec (vm : Vm) (read_write : Option Int)
    (start end_ : Nat) (allocOk : Bool) :
    ((register_mmio_emulation_handler vm read_write start end_ allocOk).1 = 0 ∨
     (register_mmio_emulation_handler vm read_write start end_ allocOk).1 =
       -EINVAL) ∧
    ((register_mmio_emulation_handler vm read_write start end_ allocOk).1 = 0 ↔
      (¬ (0 < vm.vcpuLaunched.length ∧ vm.vcpuLaunched.headD false = true) ∧
       read_write ≠ none ∧ start < end_ ∧ allocOk = true)) ∧
    ((register_mmio_emulation_handler vm read_write start end_ allocOk).1 =
        -EINVAL →
      (register_mmio_emulation_handler vm read_write start end_ allocOk).2 =
        vm) ∧
    ((register_mmio_emulation_handler vm read_write start end_ allocOk).1 = 0 →
      (register_mmio_emulation_handler vm read_write start end_ allocOk).2.mmioList =
        { range_start := start, range_end := end_,
          rwStatus := read_write.getD 0 } :: vm.mmioList ∧
      (register_mmio_emulation_handler vm read_write start end_ allocOk).2.eptDelLog =
        (if vm.isVm0 then (start, end_ - start) :: vm.eptDelLog
         else vm.eptDelLog) ∧
      (register_mmio_emulation_handler vm read_write start end_ allocOk).2.ioHandlers =
        vm.ioHandlers) := by
  by_cases h1 : 0 < vm.vcpuLaunched.length ∧ vm.vcpuLaunched.headD false = true
  · have hval : register_mmio_emulation_handler vm read_write start end_
        allocOk = (-EINVAL, vm) := by
      unfold register_mmio_emulation_handler
      rw [if_pos h1]
    rw [hval]
    refine ⟨Or.inr rfl, ?_, fun _ => rfl, ?_⟩
    · constructor
      · intro h0
        exfalso
        norm_num [EINVAL] at h0
      · rintro ⟨hg, _⟩
        exact absurd h1 hg
    · intro h0
      exfalso
      norm_num [EINVAL] at h0
  · by_cases h23 : read_write.isSome = true ∧ start < end_
    · cases allocOk
      · have hval : register_mmio_emulation_handler vm read_write start end_
            false = (-EINVAL, vm) := by
          unfold register_mmio_emulation_handler
          rw [if_neg h1, if_pos h23, if_neg (show ¬ (false = true) by
            norm_num)]
        rw [hval]
        refine ⟨Or.inr rfl, ?_, fun _ => rfl, ?_⟩
        · constructor
          · intro h0
            exfalso
            norm_num [EINVAL] at h0
          · rintro ⟨_, _, _, hA⟩
            exact absurd hA (by norm_num)
        · intro h0
          exfalso
          norm_num [EINVAL] at h0
      · have hval : register_mmio_emulation_handler vm read_write start end_
            true =
            ((0 : Int),
             { vm with
                mmioList :=
                  (⟨start, end_, read_write.getD 0⟩ : MemIoNode) ::
                    vm.mmioList,
                eptDelLog :=
                  if vm.isVm0 then (start, end_ - start) :: vm.eptDelLog
                  else vm.eptDelLog }) := by
          unfold register_mmio_emulation_handler
          rw [if_neg h1, if_pos h23, if_pos rfl]
        rw [hval]
        refine ⟨Or.inl rfl, ?_, ?_, ?_⟩
        · constructor
          · intro _
            exact ⟨h1, Option.isSome_iff_ne_none.mp h23.1, h23.2, rfl⟩
          · intro _
            rfl
        · intro h0
          exfalso
          norm_num [EINVAL] at h0
        · intro _
          exact ⟨rfl, rfl, rfl⟩
    · have hval : register_mmio_emulation_handler vm read_write start end_
          allocOk = (-EINVAL, vm) := by
        unfold register_mmio_emulation_handler
        rw [if_neg h1, if_neg h23]
      rw [hval]
      refine ⟨Or.inr rfl, ?_, fun _ => rfl, ?_⟩
      · constructor
        · intro h0
          exfalso
          norm_num [EINVAL] at h0
        · rintro ⟨_, hsome, hlt, _⟩
          exact absurd ⟨Option.isSome_iff_ne_none.mpr hsome, hlt⟩ h23
      · intro h0
        exfalso
        norm_num [EINVAL] at h0

/-- Witness for the amended C7: a null callback is rejected with -EINVAL,
and a valid registration on a fresh machine prepends exactly the node
[0x1000, 0x2000). -/
theorem register_mmio_handler_spec_witness :
    (register_mmio_emulation_handler
        ⟨false, [], ⟨fun _ => 0, fun _ => 0⟩, [], [], []⟩
        none 0x1000 0x2000 true).1 = -EINVAL ∧
    (register_mmio_emulation_handler
        ⟨false, [], ⟨fun _ => 0, fun _ => 0⟩, [], [], []⟩
        (some 0) 0x1000 0x2000 true).2.mmioList = [⟨0x1000, 0x2000, 0⟩] := by
  constructor
  · have hspec := register_mmio_handler_spec
      ⟨false, [], ⟨fun _ => 0, fun _ => 0⟩, [], [], []⟩ none 0x1000 0x2000 true
    rcases hspec.1 with h | h
    · exact absurd rfl (hspec.2.1.mp h).2.1
    · exact h
  · have hspec := register_mmio_handler_spec
      ⟨false, [], ⟨fun _ => 0, fun _ => 0⟩, [], [], []⟩ (some 0) 0x1000 0x2000
      true
    have h0 := hspec.2.1.mpr
      ⟨by simp, fun hc => Option.noConfusion hc, by norm_num, rfl⟩
    have hlist := (hspec.2.2.2 h0).1
    rw [hlist]
    rfl
